import Mathlib

/-!
Verification of the interest-accrual core of `src/db/script.js` (the
"DaddyBank" revision, lines 1–528): the rate resolver `apyForDateUser`,
the accrual engine `computeInterestSchedule`, and the projection loop of
`updateProjection`.

Modelling conventions:

* Calendar dates are modelled structurally.  The JS code builds dates with
  `new Date(y, m, d)` (months self-normalize, e.g. `month - 1` in January
  rolls to December of the previous year) and only ever compares them,
  takes start/end of month, or steps to the next month.  We represent a
  date as a month counter `ym = 12 * year + (month - 1)` together with a
  1-based day of month, ordered lexicographically; `new Date(y, m + 1, 1)`
  becomes `ym + 1`, `new Date(y, m - 1, 1)` becomes `ym - 1`, and the ISO
  string round-trip `iso`/`localDate` is the identity in this model.
* Monetary amounts and rates are exact rationals (the spec mandates exact
  unrounded decimals; IEEE-754 rounding is not modelled).
* `monthlyRateFromAPY` computes the transcendental `(1+apy)^(1/12) - 1`,
  which has no exact rational counterpart.  The engine and the projection
  are therefore parameterised by the monthly-rate function `mr : ℚ → ℚ`
  (every floating-point realisation of `monthlyRateFromAPY` maps
  representable rationals to representable rationals, so theorems
  quantified over `mr` cover the implementation); the real-valued
  `monthlyRateFromAPY` is defined separately over `ℝ` where a claim is
  about that function itself.
* `toLowerCase` is embedded as the structural character-by-character map
  `lowerString` (Lean's own `String.toLower` recurses on byte positions,
  which the kernel cannot evaluate; the two agree character-wise).
-/

/-- A calendar date: `ym = 12 * year + (month - 1)` and a 1-based day of
month.  Mirrors the `(getFullYear, getMonth, getDate)` triple of a JS
`Date` at local midnight. -/
structure CalDate where
  ym : ℤ
  day : ℤ
deriving DecidableEq, Repr

/-- Date order: lexicographic on `(ym, day)`, matching JS `Date`
comparison for date-only values. -/
def CalDate.le (a b : CalDate) : Prop := a.ym < b.ym ∨ (a.ym = b.ym ∧ a.day ≤ b.day)

/-- Strict date order. -/
def CalDate.lt (a b : CalDate) : Prop := a.ym < b.ym ∨ (a.ym = b.ym ∧ a.day < b.day)

instance : LE CalDate := ⟨CalDate.le⟩

instance : LT CalDate := ⟨CalDate.lt⟩

instance (a b : CalDate) : Decidable (a ≤ b) := by
  change Decidable (CalDate.le a b); unfold CalDate.le; infer_instance

instance (a b : CalDate) : Decidable (a < b) := by
  change Decidable (CalDate.lt a b); unfold CalDate.lt; infer_instance

theorem CalDate.le_def (a b : CalDate) :
    a ≤ b ↔ (a.ym < b.ym ∨ (a.ym = b.ym ∧ a.day ≤ b.day)) := Iff.rfl

theorem CalDate.lt_def (a b : CalDate) :
    a < b ↔ (a.ym < b.ym ∨ (a.ym = b.ym ∧ a.day < b.day)) := Iff.rfl

theorem CalDate.le_total (a b : CalDate) : a ≤ b ∨ b ≤ a := by
  simp only [CalDate.le_def]; omega

theorem CalDate.le_trans {a b c : CalDate} (h : a ≤ b) (h2 : b ≤ c) : a ≤ c := by
  simp only [CalDate.le_def] at *; omega

theorem CalDate.not_le {a b : CalDate} : ¬ a ≤ b ↔ b < a := by
  simp only [CalDate.le_def, CalDate.lt_def]; omega

/-- Convenience constructor from (year, month, day), month 1-based. -/
def ymd (y m d : ℤ) : CalDate := ⟨y * 12 + (m - 1), d⟩

/-- Gregorian leap-year test, as implemented by the JS `Date` calendar. -/
def isLeapYear (y : ℤ) : Bool := y % 4 == 0 && (y % 100 != 0 || y % 400 == 0)

/-- Number of days of the month `ym`, as computed by the source's
`daysInMonth` via `new Date(y, m + 1, 0).getDate()`. -/
def daysInMonthYM (ym : ℤ) : ℤ :=
  let m0 := ym % 12
  if m0 = 1 then (if isLeapYear (ym / 12) then 29 else 28)
  else if m0 = 3 ∨ m0 = 5 ∨ m0 = 8 ∨ m0 = 10 then 30
  else 31

/-- Source `startOfMonth`: first day of the month containing `d`. -/
def startOfMonth (d : CalDate) : CalDate := ⟨d.ym, 1⟩

/-- Source `endOfMonth`: last day of the month containing `d`. -/
def endOfMonth (d : CalDate) : CalDate := ⟨d.ym, daysInMonthYM d.ym⟩

/-- Source `firstDayNextMonth`. -/
def firstDayNextMonth (d : CalDate) : CalDate := ⟨d.ym + 1, 1⟩

/-- The calendar day immediately after `d` (used only to state the
exclusive-outside-the-interval boundary property of the rate resolver). -/
def nextDay (d : CalDate) : CalDate :=
  if d.day < daysInMonthYM d.ym then ⟨d.ym, d.day + 1⟩ else ⟨d.ym + 1, 1⟩

/-- Structural embedding of `toLowerCase` (see module comment). -/
def lowerString (s : String) : String := ⟨s.data.map Char.toLower⟩

/-- A transaction record `{date, type, amount}`.  `type` is kept as the
raw string of the data source because the engine dispatches on the
lower-cased string (`"deposit"`, `"credit"`, `"withdrawal"`, `"debit"`)
and treats anything else — including `"Interest"` — as contributing 0. -/
structure Tx where
  date : CalDate
  type : String
  amount : ℚ
deriving DecidableEq, Repr

/-- A rate interval `{startDate, endDate, rate}` of the schedule. -/
structure RateBr where
  startDate : CalDate
  endDate : CalDate
  rate : ℚ
deriving DecidableEq, Repr

/-- A user record as consumed by the engine: transactions plus the
per-user interest-rate schedule. -/
structure User where
  transactions : List Tx
  interestRates : List RateBr
deriving DecidableEq, Repr

/-- The result bundle of `computeInterestSchedule`. -/
structure Sched where
  baseBalance : ℚ
  totalInterestCredited : ℚ
  accruedCurrentMonth : ℚ
  currentBalanceWithInterest : ℚ
  interestTx : List Tx
  startBalThisMonth : ℚ
  nextMonthEstInterest : ℚ
deriving DecidableEq, Repr

/-- Covering test, the source's scan condition `s <= d && d <= e`,
inclusive at both ends. -/
def coversDate (br : RateBr) (d : CalDate) : Prop :=
  br.startDate ≤ d ∧ d ≤ br.endDate

instance (br : RateBr) (d : CalDate) : Decidable (coversDate br d) := by
  unfold coversDate; infer_instance

theorem coversDate_def (br : RateBr) (d : CalDate) :
    coversDate br d ↔ (br.startDate ≤ d ∧ d ≤ br.endDate) := Iff.rfl

/-- The scan loop of `apyForDateUser`: first interval (in list order) with
`startDate ≤ d ≤ endDate` wins; otherwise 0.  (`br.rate || 0` of the
source equals `br.rate` over exact rationals, since `0 || 0 = 0`.) -/
def apyScan : List RateBr → CalDate → ℚ
  | [], _ => 0
  | br :: rest, d => if coversDate br d then br.rate else apyScan rest d

/-- Source `apyForDateUser(user, d)` (the empty-schedule early
return is subsumed by the scan over the empty list, which returns 0). -/
def apyForDateUser (user : User) (d : CalDate) : ℚ :=
  apyScan user.interestRates d

/-- Comparison of rate intervals by start date: the comparator of the
schedule sort at `parseBankXML` line 90. -/
def startLe (a b : RateBr) : Prop := a.startDate ≤ b.startDate

instance : DecidableRel startLe := fun a b => by unfold startLe; infer_instance

instance : IsTotal RateBr startLe := ⟨fun a b => CalDate.le_total a.startDate b.startDate⟩

instance : IsTrans RateBr startLe := ⟨fun _ _ _ h h2 => CalDate.le_trans h h2⟩

/-- The stable sort of the schedule by start date performed at
construction time (`interestRates.sort((a,b) => new Date(a.startDate) -
new Date(b.startDate))` in `parseBankXML`). -/
def sortSchedule (rates : List RateBr) : List RateBr :=
  List.insertionSort startLe rates

/-- Comparison of transactions by date: the comparator of the transaction
sort in `computeInterestSchedule`. -/
def txLe (a b : Tx) : Prop := a.date ≤ b.date

instance : DecidableRel txLe := fun a b => by unfold txLe; infer_instance

/-- Sign normalisation of one transaction (`computeInterestSchedule`
lines 190–195): lower-cased `"deposit"`/`"credit"` keep `+amount`,
`"withdrawal"`/`"debit"` get `-amount`, anything else gets the initial
`signed = 0`.  (`parseFloat(t.amount) || 0` is the identity here because
amounts reach the core already numeric.) -/
def signTx (t : Tx) : Tx :=
  let ttype := lowerString t.type
  let signed : ℚ :=
    if ttype = "deposit" ∨ ttype = "credit" then t.amount
    else if ttype = "withdrawal" ∨ ttype = "debit" then -t.amount
    else 0
  ⟨t.date, t.type, signed⟩

/-- Engine `txSorted`: sign-normalise, then stable-sort by date. -/
def txSortedOf (user : User) : List Tx :=
  List.insertionSort txLe (user.transactions.map signTx)

/-- First deposit: `txSorted.find((t) => t.amount > 0)`. -/
def firstDepositOf (user : User) : Option Tx :=
  (txSortedOf user).find? (fun t => decide (0 < t.amount))

/-- Source `sumTxBetween(d1, d2)`: total signed amount of transactions dated in
`[d1, d2]`, both ends inclusive. -/
def sumTxIn (txs : List Tx) (d1 d2 : CalDate) : ℚ :=
  ((txs.filter (fun t => decide (d1 ≤ t.date ∧ t.date ≤ d2))).map Tx.amount).sum

/-- Source `sumTxBefore(d)`: total signed amount of transactions dated strictly
before `d`. -/
def sumTxBefore (txs : List Tx) (d : CalDate) : ℚ :=
  ((txs.filter (fun t => decide (t.date < d))).map Tx.amount).sum

/-- Source `lastFullMonthEnd`: last day of the month immediately before the month
of `today` (`endOfMonth(new Date(y, m - 1, 1))`). -/
def lastFullMonthEndOf (today : CalDate) : CalDate := endOfMonth ⟨today.ym - 1, 1⟩

/-- The month-start dates visited by the completed-months `while` loop.
The loop starts at `clockStart` (a first-of-month date), advances by
`firstDayNextMonth`, and runs while `mStart <= lastFullMonthEnd`; since
`lastFullMonthEnd` is a month-end (day ≥ 28 ≥ 1), that condition is
exactly `mStart.ym ≤ lastFullMonthEnd.ym`. -/
def monthStarts (clockStart lastFullMonthEnd : CalDate) : List CalDate :=
  (List.range (lastFullMonthEnd.ym - clockStart.ym + 1).toNat).map
    (fun i => ⟨clockStart.ym + i, 1⟩)

/-- One iteration of the completed-months loop, acting on the state
`(runningStartBal, totalInterestCredited, interestTx)`. -/
def monthStep (mr : ℚ → ℚ) (user : User) (txs : List Tx)
    (acc : ℚ × ℚ × List Tx) (mStart : CalDate) : ℚ × ℚ × List Tx :=
  let apy := apyForDateUser user mStart
  let mRate := mr apy
  let interest := acc.1 * mRate
  let mEnd := endOfMonth mStart
  let itx := if interest ≠ 0 then acc.2.2 ++ [⟨mEnd, "Interest", interest⟩] else acc.2.2
  let monthTx := sumTxIn txs mStart mEnd
  (acc.1 + interest + monthTx, acc.2.1 + interest, itx)

/-- Source `computeInterestSchedule(user, today)`, parameterised by the
monthly-rate function `mr` (see the module comment).  The `!user` guard of
the source is a null check handled by the caller and is not modelled. -/
def computeInterestSchedule (mr : ℚ → ℚ) (user : User) (today : CalDate) : Sched :=
  let txSorted := txSortedOf user
  if txSorted = [] then ⟨0, 0, 0, 0, [], 0, 0⟩
  else
    let baseBalance := (txSorted.map Tx.amount).sum
    match firstDepositOf user with
    | none => ⟨baseBalance, 0, 0, baseBalance, [], 0, 0⟩
    | some firstDeposit =>
      let clockStart := startOfMonth firstDeposit.date
      let currentMonthStart := startOfMonth today
      let lastFullMonthEnd := lastFullMonthEndOf today
      let res := (monthStarts clockStart lastFullMonthEnd).foldl
        (monthStep mr user txSorted) (sumTxBefore txSorted clockStart, 0, [])
      let startBalThisMonth := res.1
      let totalInterestCredited := res.2.1
      let interestTx := res.2.2
      let apyCurrent := apyForDateUser user currentMonthStart
      let mRateCurrent := mr apyCurrent
      let fullMonthInterestCurrent := startBalThisMonth * mRateCurrent
      let dim := daysInMonthYM currentMonthStart.ym
      let elapsedDays := min dim today.day
      let accruedCurrentMonth := fullMonthInterestCurrent * ((elapsedDays : ℚ) / (dim : ℚ))
      let monthTxToDate := sumTxIn txSorted currentMonthStart today
      let currentBalanceWithInterest := startBalThisMonth + monthTxToDate + accruedCurrentMonth
      let predictedStartNextMonth := startBalThisMonth + fullMonthInterestCurrent + monthTxToDate
      let nextMonthStart := firstDayNextMonth currentMonthStart
      let apyNext := apyForDateUser user nextMonthStart
      let nextMonthEstInterest := predictedStartNextMonth * mr apyNext
      ⟨baseBalance, totalInterestCredited, accruedCurrentMonth,
        currentBalanceWithInterest, interestTx, startBalThisMonth,
        nextMonthEstInterest⟩

/-- Lower-casing the type strings that appear in the sample data. -/
theorem lowerString_Deposit : lowerString "Deposit" = "deposit" := by decide

theorem lowerString_Withdrawal : lowerString "Withdrawal" = "withdrawal" := by decide

theorem lowerString_Interest : lowerString "Interest" = "interest" := by decide

/-- Engine `baseBalance`: sum of all signed amounts. -/
def baseBalanceOf (user : User) : ℚ := ((txSortedOf user).map Tx.amount).sum

/-- The list of completed-month starts actually iterated by the engine
for a user whose first deposit is `fd`, as of `today`. -/
def engineMonths (fd : Tx) (today : CalDate) : List CalDate :=
  monthStarts (startOfMonth fd.date) (lastFullMonthEndOf today)

/-- The completed-months loop of the engine as a fold, starting from the
balance carried into `clockStart`. -/
def engineFold (mr : ℚ → ℚ) (user : User) (today : CalDate) (fd : Tx) : ℚ × ℚ × List Tx :=
  (engineMonths fd today).foldl (monthStep mr user (txSortedOf user))
    (sumTxBefore (txSortedOf user) (startOfMonth fd.date), 0, [])

/-- Unfolding of `computeInterestSchedule` on the never-funded path (no
transaction with positive signed amount; includes the empty-history
case, whose zero bundle coincides with the never-funded bundle). -/
theorem computeInterestSchedule_notFunded (mr : ℚ → ℚ) (user : User) (today : CalDate)
    (h : firstDepositOf user = none) :
    computeInterestSchedule mr user today =
      ⟨baseBalanceOf user, 0, 0, baseBalanceOf user, [], 0, 0⟩ := by
  by_cases he : txSortedOf user = []
  · unfold computeInterestSchedule
    rw [if_pos he]
    simp [baseBalanceOf, he]
  · unfold computeInterestSchedule
    rw [if_neg he, h]
    rfl

/-- Unfolding of `computeInterestSchedule` on the funded path. -/
theorem computeInterestSchedule_funded (mr : ℚ → ℚ) (user : User) (today : CalDate)
    (fd : Tx) (h : firstDepositOf user = some fd) :
    computeInterestSchedule mr user today =
      { baseBalance := baseBalanceOf user
        totalInterestCredited := (engineFold mr user today fd).2.1
        accruedCurrentMonth :=
          (engineFold mr user today fd).1 * mr (apyForDateUser user (startOfMonth today)) *
            (((min (daysInMonthYM today.ym) today.day : ℤ) : ℚ) /
              ((daysInMonthYM today.ym : ℤ) : ℚ))
        currentBalanceWithInterest :=
          (engineFold mr user today fd).1 + sumTxIn (txSortedOf user) (startOfMonth today) today +
            (engineFold mr user today fd).1 * mr (apyForDateUser user (startOfMonth today)) *
              (((min (daysInMonthYM today.ym) today.day : ℤ) : ℚ) /
                ((daysInMonthYM today.ym : ℤ) : ℚ))
        interestTx := (engineFold mr user today fd).2.2
        startBalThisMonth := (engineFold mr user today fd).1
        nextMonthEstInterest :=
          ((engineFold mr user today fd).1 +
              (engineFold mr user today fd).1 * mr (apyForDateUser user (startOfMonth today)) +
              sumTxIn (txSortedOf user) (startOfMonth today) today) *
            mr (apyForDateUser user (firstDayNextMonth (startOfMonth today))) } := by
  have hne : txSortedOf user ≠ [] := by
    intro he
    rw [firstDepositOf, he] at h
    simp at h
  unfold computeInterestSchedule
  rw [if_neg hne, h]
  rfl

/-- The running balance carried into each month: starting from `b`, add
each month's interest and that month's transaction total, exactly as the
loop updates `runningStartBal`. -/
def balInto (mr : ℚ → ℚ) (user : User) (txs : List Tx) : ℚ → List CalDate → ℚ
  | b, [] => b
  | b, m :: rest =>
      balInto mr user txs
        (b + b * mr (apyForDateUser user m) + sumTxIn txs m (endOfMonth m)) rest

/-- The balance carried into the `i`-th iterated month (0-based). -/
def balIntoMonth (mr : ℚ → ℚ) (user : User) (fd : Tx) (today : CalDate) (i : ℕ) : ℚ :=
  balInto mr user (txSortedOf user)
    (sumTxBefore (txSortedOf user) (startOfMonth fd.date)) ((engineMonths fd today).take i)

/-- The interest the engine computes for the `i`-th iterated month:
balance carried into the month times the monthly rate resolved at the
month's first day. -/
def monthInterestAt (mr : ℚ → ℚ) (user : User) (fd : Tx) (today : CalDate) (i : ℕ) : ℚ :=
  balIntoMonth mr user fd today i *
    mr (apyForDateUser user ((engineMonths fd today).getD i ⟨0, 1⟩))

theorem foldl_monthStep_itx_mono (mr : ℚ → ℚ) (user : User) (txs : List Tx) :
    ∀ (ms : List CalDate) (b t : ℚ) (l : List Tx) (x : Tx), x ∈ l →
      x ∈ (ms.foldl (monthStep mr user txs) (b, t, l)).2.2 := by
  intro ms
  induction ms with
  | nil => intro b t l x hx; simpa using hx
  | cons m rest ih =>
    intro b t l x hx
    simp only [List.foldl_cons]
    refine ih _ _ _ x ?_
    simp only [monthStep]
    split
    · exact List.mem_append_left _ hx
    · exact hx

theorem foldl_monthStep_itx_mem (mr : ℚ → ℚ) (user : User) (txs : List Tx) :
    ∀ (ms : List CalDate) (b t : ℚ) (l : List Tx) (i : ℕ), i < ms.length →
      balInto mr user txs b (ms.take i) *
          mr (apyForDateUser user (ms.getD i ⟨0, 1⟩)) ≠ 0 →
      (⟨endOfMonth (ms.getD i ⟨0, 1⟩), "Interest",
          balInto mr user txs b (ms.take i) *
            mr (apyForDateUser user (ms.getD i ⟨0, 1⟩))⟩ : Tx) ∈
        (ms.foldl (monthStep mr user txs) (b, t, l)).2.2 := by
  intro ms
  induction ms with
  | nil => intro b t l i hi; simp at hi
  | cons m rest ih =>
    intro b t l i hi hnz
    match i with
    | 0 =>
      simp only [List.take_zero, balInto, List.getD_cons_zero] at hnz ⊢
      simp only [List.foldl_cons]
      refine foldl_monthStep_itx_mono mr user txs rest _ _ _ _ ?_
      simp only [monthStep, if_pos hnz]
      exact List.mem_append_right _ (List.mem_singleton.mpr rfl)
    | i + 1 =>
      simp only [List.take_succ_cons, balInto, List.getD_cons_succ] at hnz ⊢
      simp only [List.foldl_cons]
      have hi' : i < rest.length := by simpa using hi
      have := ih (b + b * mr (apyForDateUser user m) + sumTxIn txs m (endOfMonth m))
        (t + b * mr (apyForDateUser user m))
        (if b * mr (apyForDateUser user m) ≠ 0 then
          l ++ [⟨endOfMonth m, "Interest", b * mr (apyForDateUser user m)⟩] else l)
        i hi' hnz
      simpa [monthStep] using this

theorem foldl_monthStep_total_invariant (mr : ℚ → ℚ) (user : User) (txs : List Tx) :
    ∀ (ms : List CalDate) (b t : ℚ) (l : List Tx),
      (ms.foldl (monthStep mr user txs) (b, t, l)).2.1 -
          (((ms.foldl (monthStep mr user txs) (b, t, l)).2.2).map Tx.amount).sum =
        t - (l.map Tx.amount).sum := by
  intro ms
  induction ms with
  | nil => intro b t l; simp
  | cons m rest ih =>
    intro b t l
    simp only [List.foldl_cons]
    rw [show monthStep mr user txs (b, t, l) m =
      (b + b * mr (apyForDateUser user m) + sumTxIn txs m (endOfMonth m),
       t + b * mr (apyForDateUser user m),
       if b * mr (apyForDateUser user m) ≠ 0 then
         l ++ [⟨endOfMonth m, "Interest", b * mr (apyForDateUser user m)⟩] else l) from rfl]
    rw [ih]
    by_cases hz : b * mr (apyForDateUser user m) ≠ 0
    · rw [if_pos hz]
      simp
    · rw [if_neg hz]
      push_neg at hz
      rw [hz]
      ring

/-- Sample account: one deposit of 100 on 2025-01-15, flat 5% schedule. -/
def sampleUser : User :=
  ⟨[⟨ymd 2025 1 15, "Deposit", 100⟩], [⟨ymd 2020 1 1, ymd 2030 12 31, 5/100⟩]⟩

/-- The sign-normalised first deposit of `sampleUser`. -/
def sampleFd : Tx := ⟨ymd 2025 1 15, "Deposit", 100⟩

/-- C1: for every completed calendar month iterated by `computeInterestSchedule`,
the interest computed for that month equals the running balance carried into
the month (before the month's own transactions are applied) times the monthly
rate of the APY resolved at the month's first day; whenever that interest is
nonzero, an Interest transaction with exactly that amount, dated the month's
last day, is present in the posted-interest sequence of the result. -/
theorem posted_interest_matches_balance (mr : ℚ → ℚ) (user : User) (today : CalDate)
    (fd : Tx) (h : firstDepositOf user = some fd)
    (i : ℕ) (hi : i < (engineMonths fd today).length)
    (hnz : monthInterestAt mr user fd today i ≠ 0) :
    (⟨endOfMonth ((engineMonths fd today).getD i ⟨0, 1⟩), "Interest",
        monthInterestAt mr user fd today i⟩ : Tx) ∈
      (computeInterestSchedule mr user today).interestTx := by
  rw [computeInterestSchedule_funded mr user today fd h]
  simp only [engineFold]
  exact foldl_monthStep_itx_mem mr user (txSortedOf user) (engineMonths fd today)
    (sumTxBefore (txSortedOf user) (startOfMonth fd.date)) 0 [] i hi hnz

/-- Witness for C1 at `sampleUser` as of 2025-03-10: February (month
index 1) carries a balance of 100 into the month, earns interest
`100 * (5/100) = 5`, and the Interest transaction dated 2025-02-28 with
amount 5 is posted. -/
theorem posted_interest_matches_balance_witness :
    monthInterestAt (fun q => q) sampleUser sampleFd (ymd 2025 3 10) 1 = 5 ∧
    (⟨⟨24301, 28⟩, "Interest", (5 : ℚ)⟩ : Tx) ∈
      (computeInterestSchedule (fun q => q) sampleUser (ymd 2025 3 10)).interestTx := by
  have hts : txSortedOf sampleUser = [⟨ymd 2025 1 15, "Deposit", 100⟩] := by decide
  have htk : (engineMonths sampleFd (ymd 2025 3 10)).take 1 = [⟨24300, 1⟩] := by decide
  have hgd : (engineMonths sampleFd (ymd 2025 3 10)).getD 1 ⟨0, 1⟩ = ⟨24301, 1⟩ := by decide
  have hsb : sumTxBefore (txSortedOf sampleUser) (startOfMonth sampleFd.date) = 0 := by decide
  have hsi : sumTxIn (txSortedOf sampleUser) ⟨24300, 1⟩ (endOfMonth ⟨24300, 1⟩) = 100 := by
    rw [hts]
    simp [sumTxIn, endOfMonth, daysInMonthYM, isLeapYear, ymd, CalDate.le_def]
  have hapy1 : apyForDateUser sampleUser ⟨24301, 1⟩ = 5/100 := by
    simp only [apyForDateUser, sampleUser, apyScan]
    rw [if_pos (by decide)]
  have h5 : monthInterestAt (fun q => q) sampleUser sampleFd (ymd 2025 3 10) 1 = 5 := by
    rw [monthInterestAt, balIntoMonth, htk, hsb, hgd, hapy1]
    rw [balInto, balInto, hsi]
    norm_num
  have hmem := posted_interest_matches_balance (fun q => q) sampleUser (ymd 2025 3 10)
    sampleFd (by decide) 1 (by decide) (by rw [h5]; norm_num)
  have hd : endOfMonth ((engineMonths sampleFd (ymd 2025 3 10)).getD 1 ⟨0, 1⟩) =
      ⟨24301, 28⟩ := by decide
  rw [hd, h5] at hmem
  exact ⟨h5, hmem⟩

/-- C2: the accrued interest for the current (incomplete) month in the
result bundle always equals `startBalThisMonth` times the monthly rate of
the APY resolved at the current month's first day, prorated by
`min(daysInMonth, asOf.day) / daysInMonth` (in the degenerate branches
both sides are 0). -/
theorem accrued_current_month_prorated (mr : ℚ → ℚ) (user : User) (today : CalDate) :
    (computeInterestSchedule mr user today).accruedCurrentMonth =
      (computeInterestSchedule mr user today).startBalThisMonth *
        mr (apyForDateUser user (startOfMonth today)) *
        (((min (daysInMonthYM today.ym) today.day : ℤ) : ℚ) /
          ((daysInMonthYM today.ym : ℤ) : ℚ)) := by
  cases h : firstDepositOf user with
  | none => rw [computeInterestSchedule_notFunded mr user today h]; simp
  | some fd => rw [computeInterestSchedule_funded mr user today fd h]

/-- C10: `totalInterestCredited` always equals the sum of the amounts of
the posted Interest transactions (zero-interest months are skipped in the
sequence but contribute nothing to the total). -/
theorem total_interest_equals_posted_sum (mr : ℚ → ℚ) (user : User) (today : CalDate) :
    (computeInterestSchedule mr user today).totalInterestCredited =
      (((computeInterestSchedule mr user today).interestTx).map Tx.amount).sum := by
  cases h : firstDepositOf user with
  | none => rw [computeInterestSchedule_notFunded mr user today h]; simp
  | some fd =>
    rw [computeInterestSchedule_funded mr user today fd h]
    have hinv := foldl_monthStep_total_invariant mr user (txSortedOf user)
      (engineMonths fd today) (sumTxBefore (txSortedOf user) (startOfMonth fd.date)) 0 []
    simp only [engineFold]
    simp only [List.map_nil, List.sum_nil, sub_zero] at hinv
    linarith [hinv]

/-- Account whose earliest transaction is a withdrawal but which receives
a deposit later (counterexample data for the "never funded" claim). -/
def wdUser : User :=
  ⟨[⟨ymd 2025 1 10, "Withdrawal", 50⟩, ⟨ymd 2025 2 5, "Deposit", 100⟩],
   [⟨ymd 2020 1 1, ymd 2030 12 31, 1/20⟩]⟩

/-- Counterexample to C3: `wdUser`'s earliest-dated transaction is a
withdrawal (signed amount −50), yet as of 2025-04-10 the engine posts
interest (the sequence of posted Interest transactions is not empty),
because the code searches for the first transaction with positive amount
rather than testing the first transaction overall. -/
theorem first_withdrawal_account_still_accrues :
    (txSortedOf wdUser).head? = some ⟨ymd 2025 1 10, "Withdrawal", -50⟩ ∧
    (computeInterestSchedule (fun q => q) wdUser (ymd 2025 4 10)).interestTx ≠ [] := by
  refine ⟨by decide, ?_⟩
  rw [computeInterestSchedule_funded (fun q => q) wdUser (ymd 2025 4 10)
    ⟨ymd 2025 2 5, "Deposit", 100⟩ (by decide)]
  simp only [engineFold]
  have htw : txSortedOf wdUser =
      [⟨ymd 2025 1 10, "Withdrawal", -50⟩, ⟨ymd 2025 2 5, "Deposit", 100⟩] := by decide
  have hnz : balInto (fun q => q) wdUser (txSortedOf wdUser)
      (sumTxBefore (txSortedOf wdUser)
        (startOfMonth (⟨ymd 2025 2 5, "Deposit", 100⟩ : Tx).date))
      ((engineMonths (⟨ymd 2025 2 5, "Deposit", 100⟩ : Tx) (ymd 2025 4 10)).take 0) *
      (fun q => q) (apyForDateUser wdUser
        ((engineMonths (⟨ymd 2025 2 5, "Deposit", 100⟩ : Tx) (ymd 2025 4 10)).getD 0 ⟨0, 1⟩)) ≠
      0 := by
    have hsb : sumTxBefore (txSortedOf wdUser)
        (startOfMonth (⟨ymd 2025 2 5, "Deposit", 100⟩ : Tx).date) = -50 := by
      rw [htw]
      simp [sumTxBefore, startOfMonth, ymd, CalDate.lt_def]
    have hgd : (engineMonths (⟨ymd 2025 2 5, "Deposit", 100⟩ : Tx) (ymd 2025 4 10)).getD 0
        ⟨0, 1⟩ = ⟨24301, 1⟩ := by decide
    have hapy : apyForDateUser wdUser (⟨24301, 1⟩ : CalDate) = 1/20 := by
      simp only [apyForDateUser, wdUser, apyScan]
      rw [if_pos (by decide)]
    rw [List.take_zero, balInto, hsb, hgd, hapy]
    norm_num
  exact List.ne_nil_of_mem
    (foldl_monthStep_itx_mem (fun q => q) wdUser (txSortedOf wdUser)
      (engineMonths (⟨ymd 2025 2 5, "Deposit", 100⟩ : Tx) (ymd 2025 4 10))
      (sumTxBefore (txSortedOf wdUser)
        (startOfMonth (⟨ymd 2025 2 5, "Deposit", 100⟩ : Tx).date)) 0 [] 0 (by decide) hnz)

/-- C3 (amended): when the account has no transaction with positive
signed amount at all, the engine returns the never-funded terminal
result: zero total interest, no posted Interest transactions, and
`currentBalanceWithInterest` equal to `baseBalance`. -/
theorem never_funded_requires_no_positive (mr : ℚ → ℚ) (user : User) (today : CalDate)
    (h : ∀ t ∈ user.transactions, (signTx t).amount ≤ 0) :
    (computeInterestSchedule mr user today).totalInterestCredited = 0 ∧
    (computeInterestSchedule mr user today).interestTx = [] ∧
    (computeInterestSchedule mr user today).currentBalanceWithInterest =
      (computeInterestSchedule mr user today).baseBalance := by
  have hnone : firstDepositOf user = none := by
    rw [firstDepositOf, List.find?_eq_none]
    intro x hx
    have hx2 : x ∈ user.transactions.map signTx :=
      (List.perm_insertionSort txLe (user.transactions.map signTx)).subset hx
    obtain ⟨t, ht, rfl⟩ := List.mem_map.mp hx2
    simpa using h t ht
  rw [computeInterestSchedule_notFunded mr user today hnone]
  exact ⟨rfl, rfl, rfl⟩

/-- An account holding a single withdrawal and nothing else. -/
def wdOnlyUser : User := ⟨[⟨ymd 2025 1 10, "Withdrawal", 50⟩], []⟩

/-- Witness for the amended C3 at `wdOnlyUser`. -/
theorem never_funded_requires_no_positive_witness :
    (computeInterestSchedule (fun q => q) wdOnlyUser (ymd 2025 4 10)).totalInterestCredited = 0 ∧
    (computeInterestSchedule (fun q => q) wdOnlyUser (ymd 2025 4 10)).interestTx = [] ∧
    (computeInterestSchedule (fun q => q) wdOnlyUser (ymd 2025 4 10)).currentBalanceWithInterest =
      (computeInterestSchedule (fun q => q) wdOnlyUser (ymd 2025 4 10)).baseBalance := by
  refine never_funded_requires_no_positive (fun q => q) wdOnlyUser (ymd 2025 4 10) ?_
  intro t ht
  simp only [wdOnlyUser, List.mem_singleton] at ht
  subst ht
  decide

/-- Counterexample to C4: an input transaction of kind `Interest`
contributes `0` to the balance, not `+amount` — the sign-normalisation of
the engine only recognises deposit/credit and withdrawal/debit. -/
theorem interest_kind_contributes_zero :
    (signTx ⟨ymd 2025 6 1, "Interest", 5⟩).amount = 0 ∧
    (signTx ⟨ymd 2025 6 1, "Interest", 5⟩).amount ≠ (⟨ymd 2025 6 1, "Interest", 5⟩ : Tx).amount := by
  have h0 : (signTx ⟨ymd 2025 6 1, "Interest", 5⟩).amount = 0 := by
    simp [signTx, lowerString_Interest]
  refine ⟨h0, ?_⟩
  rw [h0]
  show (0 : ℚ) ≠ 5
  norm_num

/-- C4 (amended): the signed contribution is `+amount` for kinds that
lower-case to `deposit` or `credit`, `-amount` for `withdrawal` or
`debit`, and `0` for every other kind (including `Interest`, which the
engine emits but never consumes). -/
theorem sign_contribution_by_kind (t : Tx) :
    ((lowerString t.type = "deposit" ∨ lowerString t.type = "credit") →
      (signTx t).amount = t.amount) ∧
    ((lowerString t.type = "withdrawal" ∨ lowerString t.type = "debit") →
      (signTx t).amount = -t.amount) ∧
    ((lowerString t.type ≠ "deposit" ∧ lowerString t.type ≠ "credit" ∧
        lowerString t.type ≠ "withdrawal" ∧ lowerString t.type ≠ "debit") →
      (signTx t).amount = 0) := by
  have hs : (signTx t).amount =
      (if lowerString t.type = "deposit" ∨ lowerString t.type = "credit" then t.amount
       else if lowerString t.type = "withdrawal" ∨ lowerString t.type = "debit" then -t.amount
       else 0) := rfl
  refine ⟨fun h => ?_, fun h => ?_, fun h => ?_⟩ <;> rw [hs]
  · rw [if_pos h]
  · rcases h with h | h <;> rw [h] <;> simp
  · obtain ⟨h1, h2, h3, h4⟩ := h
    rw [if_neg (by tauto), if_neg (by tauto)]

/-- Witness for the amended C4: a `Deposit` contributes `+amount` and a
`Withdrawal` contributes `-amount`. -/
theorem sign_contribution_by_kind_witness :
    (signTx ⟨ymd 2025 6 1, "Deposit", 7⟩).amount = 7 ∧
    (signTx ⟨ymd 2025 6 2, "Withdrawal", 7⟩).amount = -7 :=
  ⟨(sign_contribution_by_kind ⟨ymd 2025 6 1, "Deposit", 7⟩).1 (Or.inl (by decide)),
   (sign_contribution_by_kind ⟨ymd 2025 6 2, "Withdrawal", 7⟩).2.1 (Or.inl (by decide))⟩

theorem CalDate.le_refl (a : CalDate) : a ≤ a := by simp [CalDate.le_def]

theorem CalDate.lt_nextDay (d : CalDate) : d < nextDay d := by
  unfold nextDay
  split <;> simp [CalDate.lt_def]

theorem apyScan_of_no_cover : ∀ (l : List RateBr) (d : CalDate),
    (∀ br ∈ l, ¬ coversDate br d) → apyScan l d = 0 := by
  intro l
  induction l with
  | nil => intro d _; rfl
  | cons a rest ih =>
    intro d h
    rw [apyScan, if_neg (h a (List.mem_cons_self a rest))]
    exact ih d (fun br hbr => h br (List.mem_cons_of_mem a hbr))

/-- C5: the rate resolver returns 0 on an empty schedule and whenever no
interval covers the date; when some interval covers the date it returns
the rate of a covering interval; the covering test is inclusive at both
ends — an interval's own `endDate` is covered, while the day after the
`endDate` never is. -/
theorem rateOnDate_default_and_inclusive (user : User) (d : CalDate) :
    (user.interestRates = [] → apyForDateUser user d = 0) ∧
    ((∀ br ∈ user.interestRates, ¬ coversDate br d) → apyForDateUser user d = 0) ∧
    ((∃ br ∈ user.interestRates, coversDate br d) →
      ∃ br ∈ user.interestRates, coversDate br d ∧ apyForDateUser user d = br.rate) ∧
    (∀ br : RateBr, br.startDate ≤ br.endDate → coversDate br br.endDate) ∧
    (∀ br : RateBr, ¬ coversDate br (nextDay br.endDate)) := by
  refine ⟨fun h => ?_, fun h => apyScan_of_no_cover _ d h, fun h => ?_, fun br h => ?_, fun br h => ?_⟩
  · rw [apyForDateUser, h]; rfl
  · rw [apyForDateUser]
    generalize user.interestRates = l at h ⊢
    induction l with
    | nil => obtain ⟨br, hm, _⟩ := h; simp at hm
    | cons a rest ih =>
      by_cases hc : coversDate a d
      · exact ⟨a, List.mem_cons_self a rest, hc, by rw [apyScan, if_pos hc]⟩
      · obtain ⟨br, hm, hcov⟩ := h
        rcases List.mem_cons.mp hm with rfl | hm'
        · exact absurd hcov hc
        · obtain ⟨br0, h0m, h0c, h0s⟩ := ih ⟨br, hm', hcov⟩
          exact ⟨br0, List.mem_cons_of_mem a h0m, h0c,
            by rw [apyScan, if_neg hc]; exact h0s⟩
  · exact (coversDate_def br br.endDate).mpr ⟨h, CalDate.le_refl br.endDate⟩
  · exact absurd ((coversDate_def br (nextDay br.endDate)).mp h).2
      (CalDate.not_le.mpr (CalDate.lt_nextDay br.endDate))

/-- Witness for C5 at `sampleUser`: 2025-06-15 is covered and resolves to
the covering interval's rate. -/
theorem rateOnDate_default_and_inclusive_witness :
    ∃ br ∈ sampleUser.interestRates, coversDate br (ymd 2025 6 15) ∧
      apyForDateUser sampleUser (ymd 2025 6 15) = br.rate :=
  (rateOnDate_default_and_inclusive sampleUser (ymd 2025 6 15)).2.2.1
    ⟨⟨ymd 2020 1 1, ymd 2030 12 31, 5/100⟩, List.mem_singleton.mpr rfl, by decide⟩

theorem apyScan_sorted_min (d : CalDate) : ∀ l : List RateBr, List.Sorted startLe l →
    (∃ br ∈ l, coversDate br d) →
    ∃ br ∈ l, coversDate br d ∧ apyScan l d = br.rate ∧
      ∀ br2 ∈ l, coversDate br2 d → br.startDate ≤ br2.startDate := by
  intro l
  induction l with
  | nil => rintro _ ⟨br, hm, _⟩; simp at hm
  | cons a rest ih =>
    intro hs hex
    rw [List.sorted_cons] at hs
    obtain ⟨ha, hrest⟩ := hs
    by_cases hc : coversDate a d
    · refine ⟨a, List.mem_cons_self a rest, hc, by rw [apyScan, if_pos hc], ?_⟩
      intro br2 hbr2 _
      rcases List.mem_cons.mp hbr2 with rfl | h2
      · exact CalDate.le_refl _
      · exact ha br2 h2
    · obtain ⟨br, hbr, hcov⟩ := hex
      rcases List.mem_cons.mp hbr with rfl | hbr2
      · exact absurd hcov hc
      · obtain ⟨br0, h0m, h0c, h0s, h0min⟩ := ih hrest ⟨br, hbr2, hcov⟩
        refine ⟨br0, List.mem_cons_of_mem a h0m, h0c,
          by rw [apyScan, if_neg hc]; exact h0s, ?_⟩
        intro br2 hbr2 hcov2
        rcases List.mem_cons.mp hbr2 with rfl | h2
        · exact absurd hcov2 hc
        · exact h0min br2 h2 hcov2

/-- C6: with the schedule stable-sorted by start date at construction
time (as `parseBankXML` does) and then scanned in order, the resolver
returns the rate of a covering interval whose start date is minimal among
all covering intervals of the raw, possibly unsorted and overlapping,
schedule: the earliest-starting covering interval wins. -/
theorem rateOnDate_sorted_first_match (txs : List Tx) (raw : List RateBr) (d : CalDate)
    (h : ∃ br ∈ raw, coversDate br d) :
    ∃ br ∈ raw, coversDate br d ∧
      apyForDateUser ⟨txs, sortSchedule raw⟩ d = br.rate ∧
      ∀ br2 ∈ raw, coversDate br2 d → br.startDate ≤ br2.startDate := by
  have hperm := List.perm_insertionSort startLe raw
  have hsorted : List.Sorted startLe (sortSchedule raw) :=
    List.sorted_insertionSort startLe raw
  obtain ⟨br, hm, hc⟩ := h
  obtain ⟨br0, h0m, h0c, h0s, h0min⟩ :=
    apyScan_sorted_min d (sortSchedule raw) hsorted ⟨br, hperm.mem_iff.mpr hm, hc⟩
  refine ⟨br0, hperm.mem_iff.mp h0m, h0c, h0s, ?_⟩
  intro br2 hbr2 hc2
  exact h0min br2 (hperm.mem_iff.mpr hbr2) hc2

/-- An unsorted schedule with overlapping intervals: the later-starting
interval (3%) appears first, the earlier-starting one (1%) second. -/
def overlapSchedule : List RateBr :=
  [⟨ymd 2025 3 1, ymd 2025 12 31, 3/100⟩, ⟨ymd 2025 1 1, ymd 2025 6 30, 1/100⟩]

/-- Witness for C6 at `overlapSchedule` and 2025-04-15 (covered by both
intervals): the resolver picks the earliest-starting one, concretely
returning 1%. -/
theorem rateOnDate_sorted_first_match_witness :
    (∃ br ∈ overlapSchedule, coversDate br (ymd 2025 4 15) ∧
      apyForDateUser ⟨[], sortSchedule overlapSchedule⟩ (ymd 2025 4 15) = br.rate ∧
      ∀ br2 ∈ overlapSchedule, coversDate br2 (ymd 2025 4 15) →
        br.startDate ≤ br2.startDate) ∧
    apyForDateUser ⟨[], sortSchedule overlapSchedule⟩ (ymd 2025 4 15) = 1/100 := by
  constructor
  · exact rateOnDate_sorted_first_match [] overlapSchedule (ymd 2025 4 15)
      ⟨⟨ymd 2025 1 1, ymd 2025 6 30, 1/100⟩,
        List.mem_cons_of_mem _ (List.mem_singleton.mpr rfl), by decide⟩
  · have hsort : sortSchedule overlapSchedule =
        [⟨ymd 2025 1 1, ymd 2025 6 30, 1/100⟩, ⟨ymd 2025 3 1, ymd 2025 12 31, 3/100⟩] := by
      simp only [sortSchedule, overlapSchedule, List.insertionSort, List.orderedInsert]
      rw [if_neg (by decide)]
    simp only [apyForDateUser, hsort, apyScan]
    rw [if_pos (by decide)]

/-- Source `monthlyRateFromAPY`: geometric de-annualization
`(1 + apy)^(1/12) - 1`, over the reals (the exponent is irrational, see
the module comment).  `apy || 0` of the source is the identity for
numeric inputs. -/
noncomputable def monthlyRateFromAPY (apy : ℝ) : ℝ := (1 + apy) ^ ((1 : ℝ)/12) - 1

/-- The month-count handling of `updateProjection`:
`parseInt(input.value) || 12`.  `parseInt` yields an integer or NaN
(modelled as `none`); NaN and `0` are falsy and fall back to 12, every
other integer — including negative ones — is kept. -/
def monthsOfRequest (req : Option ℤ) : ℤ :=
  match req with
  | none => 12
  | some n => if n = 0 then 12 else n

/-- The month indices visited by `for (let m = 0; m <= months; m++)`:
`0..months` when `months ≥ 0`, nothing when `months < 0`. -/
def monthIndices (months : ℤ) : List ℤ :=
  List.map (fun i : ℕ => (i : ℤ)) (List.range (months + 1).toNat)

/-- The projection loop body: push `(m, runningBalance)`, then
`runningBalance += runningBalance * mRate`. -/
def projPointsAux (mRate : ℚ) : ℚ → List ℤ → List (ℤ × ℚ)
  | _, [] => []
  | bal, m :: rest => (m, bal) :: projPointsAux mRate (bal + bal * mRate) rest

/-- The projection series of `updateProjection` for a given starting
balance, monthly rate and month count. -/
def projPoints (B mRate : ℚ) (months : ℤ) : List (ℤ × ℚ) :=
  projPointsAux mRate B (monthIndices months)

/-- Series produced by `updateProjection`, as a function of the raw `parseInt`
result of the months input field. -/
def updateProjectionSeries (B mRate : ℚ) (req : Option ℤ) : List (ℤ × ℚ) :=
  projPoints B mRate (monthsOfRequest req)

theorem projPointsAux_length (mRate : ℚ) :
    ∀ (ms : List ℤ) (bal : ℚ), (projPointsAux mRate bal ms).length = ms.length := by
  intro ms
  induction ms with
  | nil => intro bal; rfl
  | cons m rest ih => intro bal; simp [projPointsAux, ih]

theorem projPoints_length (B mRate : ℚ) (months : ℤ) :
    (projPoints B mRate months).length = (months + 1).toNat := by
  rw [projPoints, projPointsAux_length, monthIndices, List.length_map, List.length_range]

/-- Counterexample to C7: a request of `-3` months is non-positive but is
NOT defaulted to 12 — `parseInt(v) || 12` only replaces NaN and 0, so the
projection loop runs zero times and the series is empty rather than the
13-point default series. -/
theorem negative_month_request_not_defaulted :
    updateProjectionSeries 100 0 (some (-3)) ≠ updateProjectionSeries 100 0 (some 12) := by
  have h0 : (updateProjectionSeries 100 0 (some (-3))).length = 0 := by
    rw [updateProjectionSeries, projPoints_length]
    rfl
  have h13 : (updateProjectionSeries 100 0 (some 12)).length = 13 := by
    rw [updateProjectionSeries, projPoints_length]
    rfl
  intro h
  rw [h, h13] at h0
  exact absurd h0 (by norm_num)

/-- C7 (amended): a non-numeric (NaN) or zero month-count request
defaults to the 12-month horizon; a negative request is kept as-is and
produces an empty projection series. -/
theorem projection_default_horizon (B mRate : ℚ) :
    updateProjectionSeries B mRate none = updateProjectionSeries B mRate (some 12) ∧
    updateProjectionSeries B mRate (some 0) = updateProjectionSeries B mRate (some 12) ∧
    (∀ n : ℤ, n < 0 → updateProjectionSeries B mRate (some n) = []) := by
  refine ⟨rfl, rfl, fun n hn => ?_⟩
  have hempty : monthIndices (monthsOfRequest (some n)) = [] := by
    have hne : n ≠ 0 := by omega
    simp only [monthsOfRequest, if_neg hne, monthIndices]
    rw [Int.toNat_of_nonpos (by omega)]
    rfl
  rw [updateProjectionSeries, projPoints, hempty]
  rfl

/-- Witness for the amended C7 at a request of `-5` months. -/
theorem projection_default_horizon_witness :
    updateProjectionSeries 100 (1/2) none = updateProjectionSeries 100 (1/2) (some 12) ∧
    updateProjectionSeries 100 (1/2) (some 0) = updateProjectionSeries 100 (1/2) (some 12) ∧
    updateProjectionSeries 100 (1/2) (some (-5)) = [] :=
  ⟨(projection_default_horizon 100 (1/2)).1,
   (projection_default_horizon 100 (1/2)).2.1,
   (projection_default_horizon 100 (1/2)).2.2 (-5) (by norm_num)⟩

theorem projPointsAux_flat (bal : ℚ) :
    ∀ ms : List ℤ, ∀ p ∈ projPointsAux 0 bal ms, p.2 = bal := by
  intro ms
  induction ms generalizing bal with
  | nil => intro p hp; simp [projPointsAux] at hp
  | cons m rest ih =>
    intro p hp
    rw [projPointsAux] at hp
    rcases List.mem_cons.mp hp with rfl | hp2
    · rfl
    · have := ih (bal + bal * 0) p hp2
      simpa using this

theorem projPointsAux_step (mRate : ℚ) :
    ∀ (ms : List ℤ) (bal : ℚ) (i : ℕ), i + 1 < ms.length →
      ((projPointsAux mRate bal ms).getD (i + 1) (0, 0)).2 =
        ((projPointsAux mRate bal ms).getD i (0, 0)).2 * (1 + mRate) := by
  intro ms
  induction ms with
  | nil => intro bal i hi; simp at hi
  | cons m rest ih =>
    intro bal i hi
    match i with
    | 0 =>
      have hlen : 0 < rest.length := by simpa using hi
      obtain ⟨m2, rest2, rfl⟩ : ∃ m2 rest2, rest = m2 :: rest2 := by
        cases rest with
        | nil => simp at hlen
        | cons m2 rest2 => exact ⟨m2, rest2, rfl⟩
      rw [projPointsAux, projPointsAux]
      simp only [List.getD_cons_succ, List.getD_cons_zero]
      ring
    | i + 1 =>
      have hi' : i + 1 < rest.length := by simpa using hi
      rw [projPointsAux]
      simp only [List.getD_cons_succ]
      exact ih (bal + bal * mRate) i hi'

/-- C8: the projection series starts at the current balance and each
subsequent point multiplies the previous one by `1 + mRate`; a horizon of
0 yields exactly the single point `(0, B)`; with monthly rate 0 the
series is `months + 1` points all equal to `B`; and the monthly rate
derived from APY 0 is 0 (so a zero APY yields the flat series). -/
theorem projection_series_recurrence (B mRate : ℚ) (months : ℤ) :
    (0 ≤ months → (projPoints B mRate months).head? = some (0, B)) ∧
    (∀ i : ℕ, i + 1 < (projPoints B mRate months).length →
      ((projPoints B mRate months).getD (i + 1) (0, 0)).2 =
        ((projPoints B mRate months).getD i (0, 0)).2 * (1 + mRate)) ∧
    projPoints B mRate 0 = [(0, B)] ∧
    ((projPoints B 0 months).length = (months + 1).toNat ∧
      ∀ p ∈ projPoints B 0 months, p.2 = B) ∧
    monthlyRateFromAPY 0 = 0 := by
  refine ⟨fun hm => ?_, ?_, ?_, ⟨projPoints_length B 0 months, ?_⟩, ?_⟩
  · rw [projPoints, monthIndices]
    have h1 : (months + 1).toNat = (months.toNat) + 1 := by omega
    rw [h1, List.range_succ_eq_map]
    rfl
  · intro i hi
    exact projPointsAux_step mRate (monthIndices months) B i
      (by rwa [projPoints, projPointsAux_length] at hi)
  · rfl
  · exact fun p hp => projPointsAux_flat B (monthIndices months) p hp
  · rw [monthlyRateFromAPY]
    norm_num

/-- Witness for C8 at `B = 100`, `mRate = 1/2`, 2 months: the head is
`(0, 100)` and the second point is the first times `3/2`. -/
theorem projection_series_recurrence_witness :
    (projPoints 100 (1/2) 2).head? = some (0, 100) ∧
    ((projPoints 100 (1/2) 2).getD 1 (0, 0)).2 =
      ((projPoints 100 (1/2) 2).getD 0 (0, 0)).2 * (1 + 1/2) ∧
    projPoints 100 (1/2) 0 = [(0, 100)] :=
  ⟨(projection_series_recurrence 100 (1/2) 2).1 (by norm_num),
   (projection_series_recurrence 100 (1/2) 2).2.1 0
     (by rw [projPoints_length]; norm_num),
   (projection_series_recurrence 100 (1/2) 2).2.2.1⟩

